import Mathlib

/-!
Verification development for the metadata aggregation engine of the
ms-playground repository (local_modules/metalsmith-metameta/index.js, third
iteration, and local_modules/clean-meta/index.js).

JavaScript objects are embedded as insertion-ordered association lists,
JS values as the inductive `Value`, and the plugin bodies as pure state
transformers that record every invocation of the completion callback.
-/

/-- A JSON-like in-memory value: the value domain of the metadata tree
(string, number, mapping, ordered sequence) per spec section 3. -/
inductive Value where
  | str : String → Value
  | num : Int → Value
  | obj : List (String × Value) → Value
  | arr : List Value → Value

/-- The metadata tree: a JS object, modelled as an insertion-ordered
association list (the `allMetadata` object). -/
def MetaTree := List (String × Value)

/-- The content set (`files` object): relative path → raw file contents. -/
def ContentSet := List (String × String)

/-- The external filesystem visible to disk reads: absolute path → contents. -/
def FS := List (String × String)

/-- Property read on a JS object modelled as an association list
(first binding wins; there is at most one binding per key in objects
produced by the embedded code). -/
def lookupAL {α : Type} : List (String × α) → String → Option α
  | [], _ => none
  | kv :: rest, k => if kv.1 = k then some kv.2 else lookupAL rest k

/-- JS property assignment `o[k] = v`: update the existing binding in place
(keeping its position) or append a new one. -/
def setKey {α : Type} : List (String × α) → String → α → List (String × α)
  | [], k, v => [(k, v)]
  | kv :: rest, k, v => if kv.1 = k then (k, v) :: rest else kv :: setKey rest k v

/-- JS `delete o[k]`: remove the binding for `k`, if any. -/
def deleteKey {α : Type} : List (String × α) → String → List (String × α)
  | [], _ => []
  | kv :: rest, k => if kv.1 = k then rest else kv :: deleteKey rest k

/-- Property read on a `Value` (only mappings expose properties here; the
embedded code never reads string-keyed properties off arrays or scalars). -/
def getProp : Value → String → Option Value
  | Value.obj props, k => lookupAL props k
  | _, _ => none

/-- Property write on a `Value` (meaningful on mappings; the embedded code
never writes string-keyed properties onto arrays or scalars). -/
def setProp : Value → String → Value → Value
  | Value.obj props, k, v => Value.obj (setKey props k v)
  | host, _, _ => host

/-- JS `typeof x === "object"`: true for mappings and arrays, false for
strings and numbers. -/
def isObjType : Value → Bool
  | Value.obj _ => true
  | Value.arr _ => true
  | _ => false

/-- Descend through nested mappings along a list of keys. -/
def getPathV : Value → List String → Option Value
  | v, [] => some v
  | v, k :: rest =>
    match getProp v k with
    | some c => getPathV c rest
    | none => none

/-- Navigate the metadata tree along a list of keys. -/
def getPath (t : MetaTree) (ks : List String) : Option Value :=
  getPathV (Value.obj t) ks

/-- `pat` occurs as a contiguous sublist of `hay` (JS `String.includes`). -/
def hasSub : List Char → List Char → Bool
  | [], pat => pat.isEmpty
  | c :: t, pat => pat.isPrefixOf (c :: t) || hasSub t pat

/-- JS `s.includes(pat)`. -/
def containsSub (s pat : String) : Bool := hasSub s.data pat.data

/-- JS `s.startsWith(pat)`. -/
def strStartsWith (s pat : String) : Bool := pat.data.isPrefixOf s.data

/-- JS `s.substring(n)` (drop the first `n` characters). -/
def strDrop (s : String) (n : Nat) : String := String.mk (s.data.drop n)

/-- Replace the first occurrence of `pat` in the scanned list by `rep`
(JS `String.replace` with a string pattern). -/
def replChars (pat rep : List Char) : List Char → List Char
  | [] => if pat.isPrefixOf ([] : List Char) then rep else []
  | c :: t =>
    if pat.isPrefixOf (c :: t) then rep ++ (c :: t).drop pat.length
    else c :: replChars pat rep t

/-- JS `s.replace(pat, rep)`: first occurrence only. -/
def replaceFirst (s pat rep : String) : String :=
  String.mk (replChars pat.data rep.data s.data)

/-- Split a string on every occurrence of a separator character
(JS `String.split` with a one-character separator: empty parts kept). -/
def splitCharAux (sep : Char) : List Char → List Char → List String
  | [], acc => [String.mk acc.reverse]
  | c :: t, acc =>
    if c == sep then String.mk acc.reverse :: splitCharAux sep t []
    else splitCharAux sep t (c :: acc)

/-- JS `s.split(sep)` for a one-character separator. -/
def splitChar (sep : Char) (s : String) : List String := splitCharAux sep s.data []

/-- Split at the first occurrence of a multi-character separator, if any. -/
def splitOnce (pat : List Char) : List Char → Option (List Char × List Char)
  | [] => if pat.isPrefixOf ([] : List Char) then some ([], []) else none
  | c :: t =>
    if pat.isPrefixOf (c :: t) then some ([], (c :: t).drop pat.length)
    else (splitOnce pat t).map (fun pr => (c :: pr.1, pr.2))

/-- True when the scan sits at the left edge of the path's final segment
(start of string or a directory separator). -/
def extBoundary : List Char → Bool
  | [] => true
  | c :: _ => c == '/'

/-- Modelled from Node `path.extname`'s documented algorithm, scanning the
reversed character list: the extension runs from the last dot of the final
path segment to its end, except when that dot is the segment's first
character or the segment is exactly `..`, in which case it is empty. -/
def extScan : List Char → List Char → List Char
  | [], _ => []
  | c :: rest, acc =>
    if c == '/' then []
    else if c == '.' then
      (if extBoundary rest then []
       else if acc.isEmpty && (rest.head? == some '.') && extBoundary rest.tail then []
       else '.' :: acc)
    else extScan rest (c :: acc)

/-- Modelled from Node `path.basename` (trailing separators ignored,
then everything after the last separator), as the reversed character list. -/
def basenameRevChars (p : String) : List Char :=
  (p.data.reverse.dropWhile (fun c => c == '/')).takeWhile (fun c => c != '/')

/-- Node `path.basename`. -/
def basename (p : String) : String := String.mk (basenameRevChars p).reverse

/-- Node `path.extname` applied to a slash-free final segment. -/
def extnameOfBase (b : String) : String := String.mk (extScan b.data.reverse [])

/-- Node `path.extname` (the source imports it as `extension`). -/
def extname (p : String) : String := extnameOfBase (basename p)

/-- Modelled from the spec (section 6): Node `path.join(root, rel)` for the
plain relative paths the pipeline uses; dot-segment normalization is not
exercised by any claim and is not modelled. -/
def joinPath (a b : String) : String := a ++ "/" ++ b

/-- Modelled from the spec (section 6 boundary collaborators):
`fs.promises.readFile`, resolving with the file's bytes or rejecting when
the path is absent from the external filesystem. -/
def readFileFS (fs : FS) (p : String) : Except String String :=
  match lookupAL fs p with
  | some c => Except.ok c
  | none => Except.error ("ENOENT: " ++ p)

/-- Whitespace skipping inside JSON text. -/
def skipWs (cs : List Char) : List Char :=
  cs.dropWhile (fun c => c == ' ' || c == '\n' || c == '\t' || c == '\r')

/-- Scan a JSON string literal body up to the closing quote
(escape sequences are not part of the exercised fragment). -/
def strLitAux : List Char → List Char → Option (String × List Char)
  | [], _ => none
  | c :: rest, acc =>
    if c == '"' then some (String.mk acc.reverse, rest)
    else strLitAux rest (c :: acc)

/-- Decimal digits to a natural number. -/
def digitsToNat (cs : List Char) : Nat :=
  cs.foldl (fun n c => n * 10 + (c.toNat - 48)) 0

/-- Parse a run of leading digits. -/
def parseNatLit (cs : List Char) : Option (Nat × List Char) :=
  let ds := cs.takeWhile (fun c => c.isDigit)
  if ds.isEmpty then none
  else some (digitsToNat ds, cs.dropWhile (fun c => c.isDigit))

/-- Modelled from the spec (section 4.1 Format Parser): the `JSON.parse`
collaborator, as a fuel-indexed recursive-descent parser of the JSON
fragment the pipeline's data files use (objects, arrays, strings without
escapes, non-negative integers). Returns the value parser, the object-member
parser and the array-element parser at each fuel level. -/
def parseJ : Nat →
    ((List Char → Option (Value × List Char)) ×
     (List Char → Option (List (String × Value) × List Char)) ×
     (List Char → Option (List Value × List Char)))
  | 0 => (fun _ => none, fun _ => none, fun _ => none)
  | fuel + 1 =>
    let pv := (parseJ fuel).1
    let pm := (parseJ fuel).2.1
    let pe := (parseJ fuel).2.2
    ( fun cs =>
        match skipWs cs with
        | [] => none
        | c :: rest =>
          if c == '"' then
            (strLitAux rest []).map (fun p => (Value.str p.1, p.2))
          else if c == Char.ofNat 123 then
            (pm rest).map (fun p => (Value.obj p.1, p.2))
          else if c == '[' then
            (pe rest).map (fun p => (Value.arr p.1, p.2))
          else if c.isDigit then
            (parseNatLit (c :: rest)).map (fun p => (Value.num (Int.ofNat p.1), p.2))
          else none,
      fun cs =>
        match skipWs cs with
        | [] => none
        | c :: rest =>
          if c == Char.ofNat 125 then some ([], rest)
          else if c == '"' then
            match strLitAux rest [] with
            | none => none
            | some (k, r1) =>
              match skipWs r1 with
              | ':' :: r2 =>
                match pv r2 with
                | none => none
                | some (v, r3) =>
                  match skipWs r3 with
                  | ',' :: r4 => (pm r4).map (fun p => ((k, v) :: p.1, p.2))
                  | c2 :: r4 =>
                    if c2 == Char.ofNat 125 then some ([(k, v)], r4) else none
                  | [] => none
              | _ => none
          else none,
      fun cs =>
        match skipWs cs with
        | [] => none
        | c :: rest =>
          if c == ']' then some ([], rest)
          else
            match pv (c :: rest) with
            | none => none
            | some (v, r1) =>
              match skipWs r1 with
              | ',' :: r2 => (pe r2).map (fun p => (v :: p.1, p.2))
              | c2 :: r2 => if c2 == ']' then some ([v], r2) else none
              | [] => none )

/-- Modelled from the spec: `JSON.parse` on a whole document of the
exercised fragment. -/
def jsonParse (s : String) : Option Value :=
  match (parseJ (s.data.length + 2)).1 s.data with
  | some (v, rest) => if (skipWs rest).isEmpty then some v else none
  | none => none

/-- A plain YAML scalar: an all-digit token loads as a number, anything else
as a string. -/
def yamlScalar (s : String) : Value :=
  if !s.data.isEmpty && s.data.all (fun c => c.isDigit) then
    Value.num (Int.ofNat (digitsToNat s.data))
  else Value.str s

/-- One `key: value` line of the exercised YAML fragment. -/
def yamlLine (l : String) : Option (String × Value) :=
  (splitOnce (": ".data) l.data).map
    (fun pr => (String.mk pr.1, yamlScalar (String.mk pr.2)))

/-- Modelled from the spec (section 4.1): the `js-yaml` `load` collaborator
on the exercised fragment (a flat mapping, one `key: value` per line). -/
def yamlLoad (s : String) : Option Value :=
  (((splitChar '\n' s).filter (fun l => l != "")).mapM yamlLine).map Value.obj

/-- A TOML value of the exercised fragment: a basic string or an integer. -/
def tomlValueOf (s : String) : Option Value :=
  if ("\"".data.isPrefixOf s.data) && ("\"".data.isSuffixOf s.data) && s.data.length ≥ 2 then
    some (Value.str (String.mk ((s.data.drop 1).dropLast)))
  else (parseNatLit s.data).bind
    (fun p => if p.2.isEmpty then some (Value.num (Int.ofNat p.1)) else none)

/-- One `key = value` line of the exercised TOML fragment. -/
def tomlLine (l : String) : Option (String × Value) :=
  (splitOnce (" = ".data) l.data).bind
    (fun pr => (tomlValueOf (String.mk pr.2)).map (fun v => (String.mk pr.1, v)))

/-- Modelled from the spec (section 4.1): the `toml` `parse` collaborator on
the exercised fragment (a flat table, one `key = value` per line). -/
def tomlParse (s : String) : Option Value :=
  (((splitChar '\n' s).filter (fun l => l != "")).mapM tomlLine).map Value.obj

/-- The `parsers` dispatch table of metalsmith-metameta (index.js lines
520-525) and clean-meta (index.js lines 21-26): extension tag → parser. -/
def parsers (ext : String) : Option (String → Option Value) :=
  if ext = ".json" then some jsonParse
  else if ext = ".yaml" then some yamlLoad
  else if ext = ".yml" then some yamlLoad
  else if ext = ".toml" then some tomlParse
  else none

/-- `toJson` of metalsmith-metameta (index.js lines 590-597): dispatch on the
path's extension and parse; any failure inside the `try` — including the
`TypeError` raised when `parsers[ext]` is undefined — is rethrown as the
malformed-data error naming the path. -/
def toJson (file : String) (path : String) : Except String Value :=
  match parsers (extname path) with
  | none => Except.error ("malformed data in \"" ++ path ++ "\"")
  | some parser =>
    match parser file with
    | some v => Except.ok v
    | none => Except.error ("malformed data in \"" ++ path ++ "\"")

/-- One configuration entry of the specification map: destination key and
source path (the `allOptions` elements of index.js lines 733-738, whose
`path` is the raw option value in the third iteration). -/
structure Spec where
  key : String
  path : String
deriving DecidableEq, Repr

/-- `groupMetadataSources` (index.js lines 540-560): split the option entries
into local files, local directories, external files and external directories
by four independent pushes guarded by extension presence and the
content-source test. -/
def groupMetadataSources (arr : List Spec) (src : String) :
    List Spec × List Spec × List Spec × List Spec :=
  arr.foldl
    (fun accu value =>
      let hasExt := extname value.path != ""
      let isLoc := strStartsWith value.path src
      ( if hasExt && isLoc then accu.1 ++ [value] else accu.1,
        if !hasExt && isLoc then accu.2.1 ++ [value] else accu.2.1,
        if hasExt && !isLoc then accu.2.2.1 ++ [value] else accu.2.2.1,
        if !hasExt && !isLoc then accu.2.2.2 ++ [value] else accu.2.2.2 ))
    ([], [], [], [])

/-- `getNestedObject` (index.js lines 570-580) on an already split key:
reverse the segment list in place, reduce it into a nested one-key object
(the innermost segment receiving the metadata), then return the property of
the result named by the last element of the reversed list (the original
first segment). The `getD` fallback models the JS `undefined` read, which is
unreachable for a nonempty segment list. -/
def getNestedObjectParts (path : List String) (Obj : Value) : Value :=
  let rev := path.reverse
  let resultingObject :=
    rev.enum.foldl
      (fun acc kv => Value.obj [(kv.2, if kv.1 != 0 then acc else Obj)])
      (Value.obj [])
  (getProp resultingObject (rev.getLastD "")).getD (Value.obj [])

/-- `getNestedObject` (index.js lines 570-580): `fileKey.split('.')` then the
reduce above. -/
def getNestedObject (fileKey : String) (Obj : Value) : Value :=
  getNestedObjectParts (splitChar '.' fileKey) Obj

/-- `Object.assign(target, src)` for association-list objects: each property
of `src` is assigned onto `target` in order, updating in place or appending. -/
def assignProps (a b : List (String × Value)) : List (String × Value) :=
  b.foldl (fun acc kv => setKey acc kv.1 kv.2) a

/-- `Object.assign(\x7b\x7d, allMetadata[path[0]], newMetadata)` (index.js lines
760 and 794): an absent first source contributes nothing; a mapping source
contributes its properties; number and array sources contribute no
string-keyed properties of their own in the shapes this pipeline produces
(JS would spread a string source's indexed characters — never exercised,
since `newMetadata`'s keys always win regardless). -/
def objectAssign : Option Value → Value → Value
  | some (Value.obj aprops), Value.obj bprops => Value.obj (assignProps aprops bprops)
  | _, b => b

/-- The dotted-destination placement of index.js lines 755-761 (and 789-795)
on an already split key: build the nested object and shallow-merge it into
the tree under the first segment. -/
def placeDottedParts (tree : MetaTree) (parts : List String) (metadata : Value) : MetaTree :=
  let newMetadata := getNestedObjectParts parts metadata
  let p0 := parts.headD ""
  setKey tree p0 (objectAssign (lookupAL tree p0) newMetadata)

/-- The dotted-destination placement of index.js lines 755-761:
`file.key.split('.')` then the merge above. -/
def placeDotted (tree : MetaTree) (key : String) (metadata : Value) : MetaTree :=
  placeDottedParts tree (splitChar '.' key) metadata

/-- The mutable state threaded through one invocation of the `metameta`
plugin body: the `files` object, the `allMetadata` object, the sequence of
`done` invocations (argument `none` = success call, `some e` = error call),
and whether a synchronous exception has escaped the plugin function. -/
structure MMState where
  files : List (String × String)
  tree : MetaTree
  doneCalls : List (Option String)
  threw : Bool

/-- One iteration of `localFiles.forEach` (index.js lines 746-770): strip the
source-directory segment, parse the content-set entry, place at the
destination key (nested merge if the key is dotted), then
`delete files[file.key]` — the delete uses the destination key, not the
content-set path. A missing entry or a parse failure throws out of the
plugin function. -/
def localFileOne (src : String) (st : MMState) (file : Spec) : MMState :=
  if st.threw then st
  else
    let filePath := replaceFirst file.path (src ++ "/") ""
    match lookupAL st.files filePath with
    | none => { st with threw := true }
    | some contents =>
      match toJson contents filePath with
      | Except.error _ => { st with threw := true }
      | Except.ok metadata =>
        let tree2 :=
          if file.key.data.contains '.' then placeDotted st.tree file.key metadata
          else setKey st.tree file.key metadata
        { st with tree := tree2, files := deleteKey st.files file.key }

/-- `localFiles.forEach` (index.js lines 746-770). -/
def localFilesStep (src : String) (lfs : List Spec) (st : MMState) : MMState :=
  lfs.foldl (localFileOne src) st

/-- The `groupMetadata` accumulation of `localDirs.forEach` (index.js lines
777-784): walk the content set in order, parse every entry whose path
contains the directory path as a substring, and collect the parsed values;
a parse failure throws. -/
def collectGroup (filePath : String) : List (String × String) → Except String (List Value)
  | [] => Except.ok []
  | kc :: rest =>
    if containsSub kc.1 filePath then
      match toJson kc.2 kc.1 with
      | Except.error e => Except.error e
      | Except.ok v => (collectGroup filePath rest).map (fun l => v :: l)
    else collectGroup filePath rest

/-- One iteration of `localDirs.forEach` (index.js lines 772-804): aggregate
the matching content-set entries; when nonempty, place the sequence at the
destination key (nested merge if dotted); when empty, call `done` with the
no-files error and continue. -/
def localDirOne (src : String) (st : MMState) (dir : Spec) : MMState :=
  if st.threw then st
  else
    let filePath := replaceFirst dir.path (src ++ "/") ""
    match collectGroup filePath st.files with
    | Except.error _ => { st with threw := true }
    | Except.ok groupMetadata =>
      if groupMetadata.length != 0 then
        let tree2 :=
          if dir.key.data.contains '.' then placeDotted st.tree dir.key (Value.arr groupMetadata)
          else setKey st.tree dir.key (Value.arr groupMetadata)
        { st with tree := tree2 }
      else
        { st with doneCalls := st.doneCalls ++ [some "No files found in this directory"] }

/-- `localDirs.forEach` (index.js lines 772-804). -/
def localDirsStep (src : String) (lds : List Spec) (st : MMState) : MMState :=
  lds.foldl (localDirOne src) st

/-- `getExternalFile` (index.js lines 605-608): read the file and parse it
under its own path's extension; a read rejection or parse throw rejects the
returned promise. -/
def getExternalFile (fs : FS) (filePath : String) : Except String Value :=
  (readFileFS fs filePath).bind (fun c => toJson c filePath)

/-- `getFileObject` (index.js lines 653-658) as the write it performs when
its promise resolves: destination key paired with the eventual parse result. -/
def getFileObject (fs : FS) (filePath optionKey : String) :
    String × Except String Value :=
  (optionKey, getExternalFile fs filePath)

/-- Modelled from the spec (section 4.3): the `node-recursive-directory`
collaborator `getFiles`, enumerating every file of the full subtree under a
directory (as absolute paths, in filesystem order). -/
def getFiles (fs : FS) (directoryPath : String) : List String :=
  (fs.filter (fun pc => strStartsWith pc.1 (directoryPath ++ "/"))).map Prod.fst

/-- `getDirectoryFiles` + `getDirectoryFilesContent` (index.js lines 615-644):
derive each file's key by deleting the directory path, the leading
separator, and the extension, then read and parse every file; any rejection
rejects the whole batch. -/
def getDirectoryFiles (fs : FS) (directoryPath : String) :
    Except String (List (String × Value)) :=
  let files := getFiles fs directoryPath
  let newFiles := files.map
    (fun file =>
      ( replaceFirst (strDrop (replaceFirst file directoryPath "") 1) (extname file) "",
        file ))
  newFiles.mapM (fun f => (getExternalFile fs f.2).map (fun v => (f.1, v)))

/-- JS truthiness of a property read: an absent property is `undefined`
(falsy); zero and the empty string are falsy; other values truthy. -/
def jsTruthyOpt : Option Value → Bool
  | none => false
  | some (Value.num n) => n != 0
  | some (Value.str s) => s != ""
  | some _ => true

/-- `getDirectoryObject` (index.js lines 667-686) as its effect on the
metadata tree: build the keyed `groupMetadata` object, then test
`groupMetadata.length` — the `length` property of a plain object, which is
`undefined` unless a file was literally keyed `length` — and either assign
the object at the destination key or fall into the branch whose
`done`/`key` identifiers are not in scope (a `ReferenceError` swallowed by
the trailing `.catch`, like any read or parse rejection). -/
def getDirectoryObject (fs : FS) (directoryPath optionKey : String)
    (tree : MetaTree) : MetaTree :=
  match getDirectoryFiles fs directoryPath with
  | Except.error _ => tree
  | Except.ok groupMetadata =>
    if jsTruthyOpt (lookupAL groupMetadata "length") then
      setKey tree optionKey (Value.obj groupMetadata)
    else tree

/-- `externalFiles.forEach` (index.js lines 806-812): the dispatched read
tasks in specification order, each recording the write it will perform. -/
def externalFilesTasks (fs : FS) (root : String) (efs : List Spec) :
    List (String × Except String Value) :=
  efs.map (fun f => getFileObject fs (joinPath root f.path) f.key)

/-- Apply a completed sequence of external-file writes to the tree. -/
def applyWrites (ws : List (String × Value)) (tree : MetaTree) : MetaTree :=
  ws.foldl (fun t kv => setKey t kv.1 kv.2) tree

/-- Resolve the external-file tasks: fulfilled tasks perform their writes as
they settle; any rejection makes the joining `Promise.all` reject, so the
final `done` is skipped, but sibling writes still land. -/
def applyFileTasks (tasks : List (String × Except String Value))
    (tree : MetaTree) : MetaTree × Bool :=
  tasks.foldl
    (fun acc task =>
      match task.2 with
      | Except.ok v => (setKey acc.1 task.1 v, acc.2)
      | Except.error _ => (acc.1, false))
    (tree, true)

/-- The `metameta` plugin body (index.js lines 719-827): the empty-options
guard calls `done` and falls through; locals run synchronously (throws
escape the function, skipping every later `done`); external file tasks are
dispatched and joined by `Promise.all(...).then(() => done())`; external
directory tasks can never reject (their errors are swallowed) and never
gate `done`. -/
def metameta (options : List Spec) (files0 : List (String × String))
    (tree0 : MetaTree) (src root : String) (fs : FS) : MMState :=
  let st0 : MMState :=
    { files := files0
      tree := tree0
      doneCalls := if options.isEmpty then [none] else []
      threw := false }
  let groups := groupMetadataSources options src
  let st1 := localFilesStep src groups.1 st0
  let st2 := localDirsStep src groups.2.1 st1
  if st2.threw then st2
  else
    let tasks := externalFilesTasks fs root groups.2.2.1
    let applied := applyFileTasks tasks st2.tree
    let tree4 := groups.2.2.2.foldl
      (fun t d => getDirectoryObject fs (joinPath root d.path) d.key t) applied.1
    { files := st2.files
      tree := tree4
      doneCalls := if applied.2 then st2.doneCalls ++ [none] else st2.doneCalls
      threw := false }

namespace CleanMeta

/-- `set` of clean-meta (index.js lines 45-60) on an already split keypath:
walk the parts, creating missing intermediate objects; an existing
intermediate whose `typeof` is not `object` breaks the loop; the final part
is assigned. -/
def setParts : Value → List String → Value → Value
  | host, [], _ => host
  | host, [part], value => setProp host part value
  | host, part :: rest, value =>
    match getProp host part with
    | none => setProp host part (setParts (Value.obj []) rest value)
    | some child =>
      if isObjType child then setProp host part (setParts child rest value)
      else host

/-- `set` of clean-meta (index.js lines 45-60): `keypath.split('.')` then the
walk above. -/
def set (host : Value) (keypath : String) (value : Value) : Value :=
  setParts host (splitChar '.' keypath) value

/-- The walk of `setParts` runs into an existing intermediate binding whose
`typeof` is not `object` (a string or number) before reaching the leaf. -/
def hitsNonObject : Value → List String → Bool
  | _, [] => false
  | _, [_] => false
  | host, part :: rest =>
    match getProp host part with
    | none => false
    | some child => if isObjType child then hitsNonObject child rest else true

/-- The closed set of supported data extensions (clean-meta index.js line 27
builds `extglob` from the keys of `parsers`). -/
def exts : List String := [".json", ".yaml", ".yml", ".toml"]

/-- Modelled from the spec (section 6): `metalsmith.match` with the pattern
`**/*\x7b.json,.yaml,.yml,.toml\x7d` against one path — the final segment must
end in one of the four extensions and, per glob dotfile rules, must not
start with a dot (dot-directories higher up are not exercised by any
claim). -/
def matchesExtglob (p : String) : Bool :=
  let b := basename p
  (b.data.head? != some '.') && exts.any (fun e => e.data.isSuffixOf b.data)

/-- Modelled from the spec (section 6): Node `path.relative` from the source
directory, for the project-relative path shapes the pipeline uses — paths
under `src/` stay relative to it, anything else escapes via a `..` step. -/
def relToSource (src p : String) : String :=
  if strStartsWith p (src ++ "/") then strDrop p (src.length + 1)
  else "../" ++ p

/-- The observable steps of one clean-meta run, in program order: `done`
invocations from the pre-validation loop, external reads, parses. -/
inductive Event where
  | doneUnsupported (path : String)
  | doneNotFound (path : String)
  | readEv (path : String)
  | parseEv (path : String)
deriving DecidableEq, Repr

/-- The events an event is a byte-read or a parse of some source. -/
def isReadOrParse : Event → Bool
  | Event.readEv _ => true
  | Event.parseEv _ => true
  | _ => false

/-- One iteration of the fast in-source error-handling loop of clean-meta
(index.js lines 137-145): `done` with the unsupported-format error when the
extglob does not match, then `done` with not-found when a local path is
absent from the content set (neither `done` returns, so the loop and the
plugin continue). -/
def validateOne (files : ContentSet) (src : String) (filepath : String) : List Event :=
  (if matchesExtglob filepath then [] else [Event.doneUnsupported filepath]) ++
  (let srcPath := relToSource src filepath
   if !strStartsWith srcPath ".." && (lookupAL files srcPath).isNone then
     [Event.doneNotFound filepath]
   else [])

/-- The whole pre-validation loop (index.js lines 137-145), in option order. -/
def validationEvents (options : List Spec) (files : ContentSet) (src : String) :
    List Event :=
  (options.map (fun o => validateOne files src o.path)).flatten

/-- The I/O dispatched for one option entry (index.js lines 148-212): local
entries resolve against the in-memory content set without reads; external
entries read from disk. -/
def classifyEvents (src root : String) (o : Spec) : List Event :=
  let srcPath := relToSource src o.path
  if !strStartsWith srcPath ".." then []
  else [Event.readEv (joinPath root o.path)]

/-- The paths whose contents reach the final parsing loop (index.js lines
236-251): local files directly, local directories through their extglob
matches inside the content set, external entries through their reads. -/
def collectedPaths (options : List Spec) (files : ContentSet) (src : String) :
    List String :=
  (options.map
    (fun o =>
      let srcPath := relToSource src o.path
      if !strStartsWith srcPath ".." then
        if extname (basename srcPath) != "" then [srcPath]
        else (files.map Prod.fst).filter
          (fun f => strStartsWith f (srcPath ++ "/") && matchesExtglob f)
      else [o.path])).flatten

/-- The parse events of the final loop, in collection order. -/
def parseEvents (options : List Spec) (files : ContentSet) (src : String) :
    List Event :=
  (collectedPaths options files src).map Event.parseEv

/-- The event trace of one clean-meta run: the synchronous pre-validation
loop runs to completion before any promise settles, reads settle before the
final `Promise.all` continuation, and that continuation performs every
parse. -/
def cleanMetaTrace (options : List Spec) (files : ContentSet) (src root : String) :
    List Event :=
  validationEvents options files src ++
  ((options.map (classifyEvents src root)).flatten ++ parseEvents options files src)

end CleanMeta

/-- C1: the claim asserts that after a Local File specification with
destination key `k` is processed, `tree[k]` holds the parsed content AND the
source file's relative path is deleted from the content set. Evaluating the
embedded plugin at the failing input — one local file spec
`site: src/data/site.json` over a content set holding `data/site.json` —
shows the placement succeeds but the content-set entry survives: the code
executes `delete files[file.key]` with the destination key `site`, not the
content-set path `data/site.json` (index.js line 769). -/
theorem claim_C1_eval :
    (metameta [⟨"site", "src/data/site.json"⟩]
        [("data/site.json", "\x7b\"a\":1\x7d")] [] "src" "/ms" []).files
      = [("data/site.json", "\x7b\"a\":1\x7d")] ∧
    lookupAL (metameta [⟨"site", "src/data/site.json"⟩]
        [("data/site.json", "\x7b\"a\":1\x7d")] [] "src" "/ms" []).tree "site"
      = some (Value.obj [("a", Value.num 1)]) := by
  exact ⟨rfl, rfl⟩

/-- C3: the claim asserts the completion callback is invoked exactly once
per run. Evaluating the embedded plugin on the empty specification map
shows `done` is invoked twice: once by the empty-options guard (index.js
lines 721-724, no `return`) and once by the `Promise.all` continuation over
zero promises (index.js lines 824-826). -/
theorem claim_C3_eval :
    (metameta [] [] [] "src" "/ms" []).doneCalls = [none, none] := by
  exact rfl

/-- C4: the claim asserts an External Directory specification leaves at its
destination key a mapping from extension-stripped relative paths to parsed
contents. Evaluating the embedded `getDirectoryObject` at a directory
holding `a.json` and `sub/b.yaml` shows the key derivation does produce
`a` and `sub/b` with the parsed values, yet the tree is left untouched:
`groupMetadata` is a plain object, its `length` property is `undefined`
(falsy), so the code falls into the branch whose `done`/`key` identifiers
are unbound and the resulting ReferenceError is swallowed by the `.catch`
(index.js lines 671-685). -/
theorem claim_C4_eval :
    getDirectoryFiles
        [("/ms/meta/a.json", "\x7b\"n\":1\x7d"), ("/ms/meta/sub/b.yaml", "x: 1")]
        "/ms/meta"
      = Except.ok
          [("a", Value.obj [("n", Value.num 1)]),
           ("sub/b", Value.obj [("x", Value.num 1)])] ∧
    getDirectoryObject
        [("/ms/meta/a.json", "\x7b\"n\":1\x7d"), ("/ms/meta/sub/b.yaml", "x: 1")]
        "/ms/meta" "ext" []
      = [] := by
  exact ⟨rfl, rfl⟩

/-- C2 counterexample: the claim asserts the placement merges at the leaf,
so that any two specifications with distinct dotted keys sharing a prefix
preserve each other. Placing `a.b.c` then `a.b.d` (distinct dotted keys
sharing the prefix `a.b`) destroys the value previously placed at `a.b.c`:
the `Object.assign` merge of index.js line 760 is shallow at the first
segment only, so the whole mapping under `a.b` is overwritten. -/
theorem claim_C2_counterexample :
    getPath (placeDotted [] "a.b.c" (Value.num 1)) ["a", "b", "c"]
      = some (Value.num 1) ∧
    getPath (placeDotted (placeDotted [] "a.b.c" (Value.num 1)) "a.b.d" (Value.num 2))
        ["a", "b", "c"]
      = none ∧
    getPath (placeDotted (placeDotted [] "a.b.c" (Value.num 1)) "a.b.d" (Value.num 2))
        ["a", "b", "d"]
      = some (Value.num 2) := by
  exact ⟨rfl, rfl, rfl⟩

/-- C5 counterexample: the claim asserts a Local Directory aggregates exactly
the entries whose relative path STARTS WITH the directory prefix. With the
prefix `data`, the content-set entry `x/data/b.json` — which does not start
with the prefix — is parsed and aggregated too, because index.js line 779
tests `file.includes(filePath)` (substring containment), not a prefix. -/
theorem claim_C5_counterexample :
    (localDirOne "src"
        ⟨[("data/a.json", "\x7b\"n\":1\x7d"), ("x/data/b.json", "\x7b\"n\":2\x7d")],
          [], [], false⟩
        ⟨"d", "src/data"⟩).tree
      = [("d", Value.arr
            [Value.obj [("n", Value.num 1)], Value.obj [("n", Value.num 2)]])] ∧
    strStartsWith "x/data/b.json" "data" = false := by
  exact ⟨rfl, rfl⟩

/-- C7: parsing `\x7b"x":1,"y":"z"\x7d` as `.json`, `x: 1 / y: z` as `.yaml`
and `x = 1 / y = "z"` as `.toml` through three Local File specifications
places the identical in-memory value `\x7bx:1, y:"z"\x7d` at the three
destination keys. -/
theorem claim_C7 :
    lookupAL (metameta
        [⟨"jdata", "src/meta/a.json"⟩, ⟨"ydata", "src/meta/b.yaml"⟩,
         ⟨"tdata", "src/meta/c.toml"⟩]
        [("meta/a.json", "\x7b\"x\":1,\"y\":\"z\"\x7d"),
         ("meta/b.yaml", "x: 1\ny: z"),
         ("meta/c.toml", "x = 1\ny = \"z\"")]
        [] "src" "/ms" []).tree "jdata"
      = some (Value.obj [("x", Value.num 1), ("y", Value.str "z")]) ∧
    lookupAL (metameta
        [⟨"jdata", "src/meta/a.json"⟩, ⟨"ydata", "src/meta/b.yaml"⟩,
         ⟨"tdata", "src/meta/c.toml"⟩]
        [("meta/a.json", "\x7b\"x\":1,\"y\":\"z\"\x7d"),
         ("meta/b.yaml", "x: 1\ny: z"),
         ("meta/c.toml", "x = 1\ny = \"z\"")]
        [] "src" "/ms" []).tree "ydata"
      = some (Value.obj [("x", Value.num 1), ("y", Value.str "z")]) ∧
    lookupAL (metameta
        [⟨"jdata", "src/meta/a.json"⟩, ⟨"ydata", "src/meta/b.yaml"⟩,
         ⟨"tdata", "src/meta/c.toml"⟩]
        [("meta/a.json", "\x7b\"x\":1,\"y\":\"z\"\x7d"),
         ("meta/b.yaml", "x: 1\ny: z"),
         ("meta/c.toml", "x = 1\ny = \"z\"")]
        [] "src" "/ms" []).tree "tdata"
      = some (Value.obj [("x", Value.num 1), ("y", Value.str "z")]) := by
  exact ⟨rfl, rfl, rfl⟩

lemma lookup_setKey {α : Type} (t : List (String × α)) (k : String) (v : α) (q : String) :
    lookupAL (setKey t k v) q = if k = q then some v else lookupAL t q := by
  induction t with
  | nil => simp [setKey, lookupAL]
  | cons kv rest ih =>
    obtain ⟨a, b⟩ := kv
    by_cases h1 : a = k
    · by_cases h2 : k = q <;> simp [setKey, lookupAL, h1, h2]
    · by_cases h2 : a = q
      · have h3 : ¬ k = q := fun he => h1 (he ▸ h2)
        have h4 : ¬ q = k := fun he => h3 he.symm
        simp [setKey, lookupAL, h1, h2, h3, h4]
      · simp [setKey, lookupAL, h1, h2, ih]

lemma setKey_self {α : Type} (t : List (String × α)) (k : String) (v : α)
    (h : lookupAL t k = some v) : setKey t k v = t := by
  induction t with
  | nil => simp [lookupAL] at h
  | cons kv rest ih =>
    obtain ⟨a, b⟩ := kv
    by_cases h1 : a = k
    · simp [lookupAL, h1] at h
      simp [setKey, h1, h]
    · simp [lookupAL, h1] at h
      simp [setKey, h1, ih h]

lemma setProp_getProp_self (host : Value) (p : String) (c : Value)
    (h : getProp host p = some c) : setProp host p c = host := by
  cases host with
  | obj props => simp only [setProp]; rw [setKey_self props p c h]
  | str s => simp [getProp] at h
  | num n => simp [getProp] at h
  | arr l => simp [getProp] at h

lemma setParts_blocked (parts : List String) :
    ∀ (host : Value) (v : Value), CleanMeta.hitsNonObject host parts = true →
      CleanMeta.setParts host parts v = host := by
  induction parts with
  | nil => intro host v h; simp [CleanMeta.hitsNonObject] at h
  | cons p rest ih =>
    intro host v h
    cases rest with
    | nil => simp [CleanMeta.hitsNonObject] at h
    | cons q rest2 =>
      cases hg : getProp host p with
      | none => simp [CleanMeta.hitsNonObject, hg] at h
      | some child =>
        by_cases hobj : isObjType child
        · have hchild : CleanMeta.hitsNonObject child (q :: rest2) = true := by
            simpa [CleanMeta.hitsNonObject, hg, hobj] using h
          simp only [CleanMeta.setParts, hg, hobj, if_true]
          rw [ih child v hchild]
          exact setProp_getProp_self host p child hg
        · simp [CleanMeta.setParts, hg, hobj]

/-- C9: when the `set` walk of clean-meta meets an existing intermediate
binding holding a non-object value (`typeof` not `"object"`: a string or a
number), the loop breaks: `set` terminates and returns the host tree
entirely unchanged — the non-object value and everything below it are
intact and the new value is silently not placed. -/
theorem claim_C9 (host : Value) (keypath : String) (value : Value)
    (h : CleanMeta.hitsNonObject host (splitChar '.' keypath) = true) :
    CleanMeta.set host keypath value = host :=
  setParts_blocked (splitChar '.' keypath) host value h

/-- C9 witness: in the tree `\x7ba: 3\x7d` the intermediate segment `a` of the
keypath `a.b` holds the number `3`; `set` leaves the tree unchanged. -/
theorem claim_C9_witness :
    CleanMeta.hitsNonObject (Value.obj [("a", Value.num 3)]) (splitChar '.' "a.b") = true ∧
    CleanMeta.set (Value.obj [("a", Value.num 3)]) "a.b" (Value.str "q")
      = Value.obj [("a", Value.num 3)] :=
  ⟨rfl, claim_C9 (Value.obj [("a", Value.num 3)]) "a.b" (Value.str "q") rfl⟩

lemma gno_pair (x y : String) (v : Value) :
    getNestedObjectParts [x, y] v = Value.obj [(y, v)] := by
  show (getProp (Value.obj [(x, Value.obj [(y, v)])]) x).getD (Value.obj [])
      = Value.obj [(y, v)]
  simp [getProp, lookupAL]

lemma objectAssign_single_obj (o : Option Value) (k : String) (v : Value) :
    ∃ props, objectAssign o (Value.obj [(k, v)]) = Value.obj props ∧
      ∀ q, lookupAL props q
        = if k = q then some v
          else match o with
               | some (Value.obj ap) => lookupAL ap q
               | _ => none := by
  match o with
  | none =>
    refine ⟨[(k, v)], rfl, fun q => ?_⟩
    by_cases h : k = q <;> simp [lookupAL, h]
  | some (Value.obj ap) =>
    refine ⟨assignProps ap [(k, v)], rfl, fun q => ?_⟩
    show lookupAL (setKey ap k v) q = _
    rw [lookup_setKey]
  | some (Value.str s) =>
    refine ⟨[(k, v)], rfl, fun q => ?_⟩
    by_cases h : k = q <;> simp [lookupAL, h]
  | some (Value.num n) =>
    refine ⟨[(k, v)], rfl, fun q => ?_⟩
    by_cases h : k = q <;> simp [lookupAL, h]
  | some (Value.arr l) =>
    refine ⟨[(k, v)], rfl, fun q => ?_⟩
    by_cases h : k = q <;> simp [lookupAL, h]

/-- C2 (amended): placing a value under a dotted destination key builds the
nested chain from its segments and shallow-merges it into the tree at the
FIRST segment (new keys win at that top level only), rather than merging at
the leaf. Consequently two specifications with distinct two-segment dotted
keys sharing the same first segment — e.g. `a.b` and `a.c` — preserve each
other: after placing under `[a, b]` and then `[a, c]` with `b ≠ c`, the
tree holds both values. (For deeper keys sharing a longer prefix the merge
is destructive, as the counterexample shows.) -/
theorem claim_C2_amended (tree : MetaTree) (a b c : String) (v1 v2 : Value)
    (hbc : b ≠ c) :
    getPath (placeDottedParts (placeDottedParts tree [a, b] v1) [a, c] v2) [a, b]
      = some v1 ∧
    getPath (placeDottedParts (placeDottedParts tree [a, b] v1) [a, c] v2) [a, c]
      = some v2 := by
  obtain ⟨p1, hp1, hl1⟩ := objectAssign_single_obj (lookupAL tree a) b v1
  have ht1 : placeDottedParts tree [a, b] v1 = setKey tree a (Value.obj p1) := by
    simp [placeDottedParts, gno_pair, hp1]
  have hlt1 : lookupAL (setKey tree a (Value.obj p1)) a = some (Value.obj p1) := by
    rw [lookup_setKey]; simp
  obtain ⟨p2, hp2, hl2⟩ :=
    objectAssign_single_obj (some (Value.obj p1)) c v2
  have ht2 : placeDottedParts (placeDottedParts tree [a, b] v1) [a, c] v2
      = setKey (setKey tree a (Value.obj p1)) a (Value.obj p2) := by
    rw [ht1]
    simp [placeDottedParts, gno_pair, hlt1, hp2]
  have hlt2 : lookupAL (setKey (setKey tree a (Value.obj p1)) a (Value.obj p2)) a
      = some (Value.obj p2) := by
    rw [lookup_setKey]; simp
  constructor
  · rw [ht2]
    show getPathV (Value.obj (setKey (setKey tree a (Value.obj p1)) a (Value.obj p2)))
        [a, b] = some v1
    simp only [getPathV, getProp, hlt2]
    have hb : lookupAL p2 b = some v1 := by
      rw [hl2 b]
      have : ¬ c = b := fun he => hbc he.symm
      simp [this, hl1 b]
    simp [hb]
  · rw [ht2]
    show getPathV (Value.obj (setKey (setKey tree a (Value.obj p1)) a (Value.obj p2)))
        [a, c] = some v2
    simp only [getPathV, getProp, hlt2]
    have hc : lookupAL p2 c = some v2 := by rw [hl2 c]; simp
    simp [hc]

/-- C2 amended witness: `nav.primary` then `nav.footer` over the empty tree
both survive. -/
theorem claim_C2_amended_witness :
    ("primary" : String) ≠ "footer" ∧
    getPath (placeDottedParts (placeDottedParts [] ["nav", "primary"] (Value.num 1))
        ["nav", "footer"] (Value.num 2)) ["nav", "primary"] = some (Value.num 1) ∧
    getPath (placeDottedParts (placeDottedParts [] ["nav", "primary"] (Value.num 1))
        ["nav", "footer"] (Value.num 2)) ["nav", "footer"] = some (Value.num 2) :=
  ⟨by decide,
   (claim_C2_amended [] "nav" "primary" "footer" (Value.num 1) (Value.num 2) (by decide)).1,
   (claim_C2_amended [] "nav" "primary" "footer" (Value.num 1) (Value.num 2) (by decide)).2⟩

lemma collectGroup_spec (fp : String) :
    ∀ (files : List (String × String)) (vs : List Value),
      collectGroup fp files = Except.ok vs →
      List.Forall₂ (fun (kc : String × String) v => toJson kc.2 kc.1 = Except.ok v)
        (files.filter (fun kc => containsSub kc.1 fp)) vs := by
  intro files
  induction files with
  | nil =>
    intro vs h
    simp [collectGroup] at h
    simp [← h]
  | cons kc rest ih =>
    intro vs h
    by_cases hm : containsSub kc.1 fp
    · simp only [collectGroup, hm, if_true] at h
      cases hj : toJson kc.2 kc.1 with
      | error e => rw [hj] at h; exact absurd h (by simp)
      | ok v =>
        rw [hj] at h
        cases hr : collectGroup fp rest with
        | error e => rw [hr] at h; exact absurd h (by simp [Except.map])
        | ok vs2 =>
          rw [hr] at h
          simp [Except.map] at h
          rw [← h]
          have hf : List.filter (fun kc => containsSub kc.1 fp) (kc :: rest)
              = kc :: List.filter (fun kc => containsSub kc.1 fp) rest := by
            simp [hm]
          rw [hf]
          exact List.Forall₂.cons hj (ih vs2 hr)
    · simp only [collectGroup, hm, if_false] at h
      simpa [List.filter_cons, hm] using ih vs h

/-- C5 (amended): a Local Directory specification aggregates, in content-set
iteration order, exactly the parsed values of those content-set entries
whose relative path CONTAINS the directory path (with the source-directory
segment stripped) as a substring — the code tests `file.includes(...)`, not
a prefix; when the aggregate is nonempty and the destination key is plain,
it is placed at the key as a sequence, and the content set is left entirely
untouched: no entry is deleted, and entries that do not contain the
directory path are never parsed (the run succeeds whether or not they would
parse). -/
theorem claim_C5_amended (src : String) (files : List (String × String))
    (dir : Spec) (tree : MetaTree) (doneCalls : List (Option String)) (vs : List Value)
    (hok : collectGroup (replaceFirst dir.path (src ++ "/") "") files = Except.ok vs)
    (hne : vs ≠ [])
    (hkey : dir.key.data.contains '.' = false) :
    localDirOne src ⟨files, tree, doneCalls, false⟩ dir
      = ⟨files, setKey tree dir.key (Value.arr vs), doneCalls, false⟩ ∧
    List.Forall₂ (fun (kc : String × String) v => toJson kc.2 kc.1 = Except.ok v)
      (files.filter
        (fun kc => containsSub kc.1 (replaceFirst dir.path (src ++ "/") ""))) vs := by
  constructor
  · have hlen : (vs.length != 0) = true := by
      cases vs with
      | nil => exact absurd rfl hne
      | cons v vs2 => simp
    have hkey2 : ¬ ('.' ∈ dir.key.data) := by simpa using hkey
    simp [localDirOne, hok, hlen]
    intro hx
    exact absurd hx hkey2
  · exact collectGroup_spec (replaceFirst dir.path (src ++ "/") "") files vs hok

/-- C5 amended witness: the content set holds a matching data file and a
non-matching file whose contents are not even parseable; the run succeeds,
aggregates exactly the matching entry, and leaves the content set alone. -/
theorem claim_C5_amended_witness :
    collectGroup "data" [("data/a.json", "\x7b\"n\":1\x7d"), ("notes/readme.md", "not data")]
      = Except.ok [Value.obj [("n", Value.num 1)]] ∧
    localDirOne "src"
        ⟨[("data/a.json", "\x7b\"n\":1\x7d"), ("notes/readme.md", "not data")], [], [], false⟩
        ⟨"d", "src/data"⟩
      = ⟨[("data/a.json", "\x7b\"n\":1\x7d"), ("notes/readme.md", "not data")],
         setKey [] "d" (Value.arr [Value.obj [("n", Value.num 1)]]), [], false⟩ :=
  ⟨rfl,
   (claim_C5_amended "src"
      [("data/a.json", "\x7b\"n\":1\x7d"), ("notes/readme.md", "not data")]
      ⟨"d", "src/data"⟩ [] [] [Value.obj [("n", Value.num 1)]]
      rfl (List.cons_ne_nil _ _) rfl).1⟩

lemma lookup_applyWrites_not_mem :
    ∀ (ws : List (String × Value)) (tree : MetaTree) (q : String),
      q ∉ ws.map Prod.fst →
      lookupAL (applyWrites ws tree) q = lookupAL tree q := by
  intro ws
  induction ws with
  | nil => intro tree q _; rfl
  | cons kv rest ih =>
    intro tree q h
    have hq : q ∉ rest.map Prod.fst := fun hx => h (List.mem_cons_of_mem _ hx)
    have hne : ¬ kv.1 = q := fun he => h (by simp [he])
    show lookupAL (applyWrites rest (setKey tree kv.1 kv.2)) q = lookupAL tree q
    rw [ih (setKey tree kv.1 kv.2) q hq, lookup_setKey]
    simp [hne]

lemma lookup_applyWrites_mem :
    ∀ (ws : List (String × Value)) (tree : MetaTree) (k : String) (v : Value),
      (ws.map Prod.fst).Nodup → (k, v) ∈ ws →
      lookupAL (applyWrites ws tree) k = some v := by
  intro ws
  induction ws with
  | nil => intro tree k v _ hm; exact absurd hm (List.not_mem_nil _)
  | cons kv rest ih =>
    intro tree k v hnd hm
    have hnd2 : (rest.map Prod.fst).Nodup := (List.nodup_cons.mp hnd).2
    have hhead : kv.1 ∉ rest.map Prod.fst := (List.nodup_cons.mp hnd).1
    rcases List.mem_cons.mp hm with heq | hrest
    · have hk : kv.1 = k := by rw [← heq]
      have hv : kv.2 = v := by rw [← heq]
      show lookupAL (applyWrites rest (setKey tree kv.1 kv.2)) k = some v
      rw [lookup_applyWrites_not_mem rest _ k (hk ▸ hhead), lookup_setKey]
      simp [hk, hv]
    · show lookupAL (applyWrites rest (setKey tree kv.1 kv.2)) k = some v
      exact ih _ k v hnd2 hrest

lemma mem_of_mem_map_fst {ws : List (String × Value)} {q : String}
    (h : q ∈ ws.map Prod.fst) : ∃ v, (q, v) ∈ ws := by
  rcases List.mem_map.mp h with ⟨kv, hkv, hq⟩
  exact ⟨kv.2, by rw [← hq]; exact (by simpa using hkv)⟩

/-- C8: when every external-file read succeeds (the dispatched task list
resolves to the writes `ws`, in specification order) and the destination
keys are pairwise distinct, the final metadata tree is the same no matter
in which order the tasks complete: applying any permutation `order` of the
writes yields a tree that agrees pointwise with applying `ws`, and every
dispatched External File specification's value appears in the final tree at
its key. -/
theorem claim_C8 (fs : FS) (root : String) (efs : List Spec)
    (ws order : List (String × Value)) (tree : MetaTree)
    (hws : externalFilesTasks fs root efs
      = ws.map (fun kv => (kv.1, Except.ok kv.2)))
    (hperm : order.Perm ws)
    (hnd : (ws.map Prod.fst).Nodup) :
    (∀ q, lookupAL (applyWrites order tree) q = lookupAL (applyWrites ws tree) q) ∧
    (∀ kv ∈ ws, lookupAL (applyWrites order tree) kv.1 = some kv.2) := by
  have hndo : (order.map Prod.fst).Nodup :=
    ((hperm.map Prod.fst).nodup_iff).mpr hnd
  have happear : ∀ kv ∈ ws, lookupAL (applyWrites order tree) kv.1 = some kv.2 := by
    intro kv hkv
    exact lookup_applyWrites_mem order tree kv.1 kv.2 hndo
      (hperm.mem_iff.mpr hkv)
  refine ⟨fun q => ?_, happear⟩
  by_cases hq : q ∈ ws.map Prod.fst
  · obtain ⟨v, hv⟩ := mem_of_mem_map_fst hq
    rw [lookup_applyWrites_mem ws tree q v hnd hv,
        lookup_applyWrites_mem order tree q v hndo (hperm.mem_iff.mpr hv)]
  · have hqo : q ∉ order.map Prod.fst := fun hx =>
      hq (((hperm.map Prod.fst).mem_iff).mp hx)
    rw [lookup_applyWrites_not_mem ws tree q hq,
        lookup_applyWrites_not_mem order tree q hqo]

/-- C8 witness: two External File specifications with distinct keys over a
two-file external filesystem; completing them in reversed order leaves both
parsed values in the final tree. -/
theorem claim_C8_witness :
    externalFilesTasks
        [("/ms/data/a.json", "\x7b\"p\":1\x7d"), ("/ms/data/b.json", "\x7b\"q\":2\x7d")]
        "/ms" [⟨"one", "data/a.json"⟩, ⟨"two", "data/b.json"⟩]
      = ([("one", Value.obj [("p", Value.num 1)]),
          ("two", Value.obj [("q", Value.num 2)])].map
          (fun kv => (kv.1, Except.ok kv.2))) ∧
    lookupAL (applyWrites
        [("two", Value.obj [("q", Value.num 2)]),
         ("one", Value.obj [("p", Value.num 1)])] []) "one"
      = some (Value.obj [("p", Value.num 1)]) ∧
    lookupAL (applyWrites
        [("two", Value.obj [("q", Value.num 2)]),
         ("one", Value.obj [("p", Value.num 1)])] []) "two"
      = some (Value.obj [("q", Value.num 2)]) :=
  ⟨rfl,
   (claim_C8
      [("/ms/data/a.json", "\x7b\"p\":1\x7d"), ("/ms/data/b.json", "\x7b\"q\":2\x7d")]
      "/ms" [⟨"one", "data/a.json"⟩, ⟨"two", "data/b.json"⟩]
      [("one", Value.obj [("p", Value.num 1)]), ("two", Value.obj [("q", Value.num 2)])]
      [("two", Value.obj [("q", Value.num 2)]), ("one", Value.obj [("p", Value.num 1)])]
      [] rfl
      (List.Perm.swap _ _ _)
      (by simp)).2
     ("one", Value.obj [("p", Value.num 1)]) (by simp),
   (claim_C8
      [("/ms/data/a.json", "\x7b\"p\":1\x7d"), ("/ms/data/b.json", "\x7b\"q\":2\x7d")]
      "/ms" [⟨"one", "data/a.json"⟩, ⟨"two", "data/b.json"⟩]
      [("one", Value.obj [("p", Value.num 1)]), ("two", Value.obj [("q", Value.num 2)])]
      [("two", Value.obj [("q", Value.num 2)]), ("one", Value.obj [("p", Value.num 1)])]
      [] rfl
      (List.Perm.swap _ _ _)
      (by simp)).2
     ("two", Value.obj [("q", Value.num 2)]) (by simp)⟩

lemma gms_go (src : String) :
    ∀ (arr : List Spec) (a0 a1 a2 a3 : List Spec),
      arr.foldl
        (fun accu value =>
          let hasExt := extname value.path != ""
          let isLoc := strStartsWith value.path src
          ( if hasExt && isLoc then accu.1 ++ [value] else accu.1,
            if !hasExt && isLoc then accu.2.1 ++ [value] else accu.2.1,
            if hasExt && !isLoc then accu.2.2.1 ++ [value] else accu.2.2.1,
            if !hasExt && !isLoc then accu.2.2.2 ++ [value] else accu.2.2.2 ))
        (a0, a1, a2, a3)
      = (a0 ++ arr.filter (fun v => (extname v.path != "") && strStartsWith v.path src),
         a1 ++ arr.filter (fun v => !(extname v.path != "") && strStartsWith v.path src),
         a2 ++ arr.filter (fun v => (extname v.path != "") && !strStartsWith v.path src),
         a3 ++ arr.filter (fun v => !(extname v.path != "") && !strStartsWith v.path src)) := by
  intro arr
  induction arr with
  | nil => intro a0 a1 a2 a3; simp
  | cons v rest ih =>
    intro a0 a1 a2 a3
    rw [List.foldl_cons, ih]
    cases he : extname v.path != "" <;> cases hl : strStartsWith v.path src <;>
      simp [List.filter_cons, he, hl]

lemma filter4_perm (src : String) :
    ∀ (arr : List Spec),
      (arr.filter (fun v => (extname v.path != "") && strStartsWith v.path src) ++
       (arr.filter (fun v => !(extname v.path != "") && strStartsWith v.path src) ++
        (arr.filter (fun v => (extname v.path != "") && !strStartsWith v.path src) ++
         arr.filter (fun v => !(extname v.path != "") && !strStartsWith v.path src)))).Perm
        arr := by
  intro arr
  induction arr with
  | nil => simp
  | cons v rest ih =>
    cases he : extname v.path != "" <;> cases hl : strStartsWith v.path src <;>
      simp only [List.filter_cons, he, hl, Bool.not_true, Bool.not_false,
        Bool.true_and, Bool.false_and, Bool.and_true, Bool.and_false,
        Bool.and_self, if_true, if_false, List.cons_append, Bool.false_eq_true,
        Bool.true_eq_false, ite_true, ite_false, if_neg, if_pos] <;>
      first
        | exact ih.cons v
        | exact List.perm_middle.trans (ih.cons v)
        | exact ((List.Perm.append_left _ List.perm_middle).trans
            List.perm_middle).trans (ih.cons v)
        | exact ((List.Perm.append_left _ (List.Perm.append_left _ List.perm_middle)).trans
            ((List.Perm.append_left _ List.perm_middle).trans List.perm_middle)).trans
            (ih.cons v)

/-- C10: `groupMetadataSources` partitions the specification list: each of
the four groups is exactly the sublist satisfying its classification
condition — extension presence and the content-source test on the path,
nothing else — so every entry lands in at least one group, the groups are
pairwise disjoint, and their concatenation is a permutation of the input. -/
theorem claim_C10 (arr : List Spec) (src : String) :
    (groupMetadataSources arr src).1
      = arr.filter (fun v => (extname v.path != "") && strStartsWith v.path src) ∧
    (groupMetadataSources arr src).2.1
      = arr.filter (fun v => !(extname v.path != "") && strStartsWith v.path src) ∧
    (groupMetadataSources arr src).2.2.1
      = arr.filter (fun v => (extname v.path != "") && !strStartsWith v.path src) ∧
    (groupMetadataSources arr src).2.2.2
      = arr.filter (fun v => !(extname v.path != "") && !strStartsWith v.path src) ∧
    ((groupMetadataSources arr src).1 ++
      ((groupMetadataSources arr src).2.1 ++
        ((groupMetadataSources arr src).2.2.1 ++
          (groupMetadataSources arr src).2.2.2))).Perm arr ∧
    (∀ v : Spec,
      ¬ (v ∈ (groupMetadataSources arr src).1 ∧ v ∈ (groupMetadataSources arr src).2.1) ∧
      ¬ (v ∈ (groupMetadataSources arr src).1 ∧ v ∈ (groupMetadataSources arr src).2.2.1) ∧
      ¬ (v ∈ (groupMetadataSources arr src).1 ∧ v ∈ (groupMetadataSources arr src).2.2.2) ∧
      ¬ (v ∈ (groupMetadataSources arr src).2.1 ∧ v ∈ (groupMetadataSources arr src).2.2.1) ∧
      ¬ (v ∈ (groupMetadataSources arr src).2.1 ∧ v ∈ (groupMetadataSources arr src).2.2.2) ∧
      ¬ (v ∈ (groupMetadataSources arr src).2.2.1 ∧ v ∈ (groupMetadataSources arr src).2.2.2)) := by
  have hg : groupMetadataSources arr src
      = (arr.filter (fun v => (extname v.path != "") && strStartsWith v.path src),
         arr.filter (fun v => !(extname v.path != "") && strStartsWith v.path src),
         arr.filter (fun v => (extname v.path != "") && !strStartsWith v.path src),
         arr.filter (fun v => !(extname v.path != "") && !strStartsWith v.path src)) := by
    unfold groupMetadataSources
    rw [gms_go src arr [] [] [] []]
    simp
  rw [hg]
  refine ⟨rfl, rfl, rfl, rfl, filter4_perm src arr, ?_⟩
  refine fun v => ⟨?_, ?_, ?_, ?_, ?_, ?_⟩ <;>
    · rintro ⟨hv1, hv2⟩
      have c1 := (List.mem_filter.mp hv1).2
      have c2 := (List.mem_filter.mp hv2).2
      cases hx : extname v.path != "" <;> cases hy : strStartsWith v.path src <;>
        simp [hx, hy] at c1 c2

lemma extScan_through :
    ∀ (ys rest acc : List Char), (∀ c ∈ ys, ¬ c = '.' ∧ ¬ c = '/') →
      extScan (ys.reverse ++ rest) acc = extScan rest (ys ++ acc) := by
  intro ys
  induction ys with
  | nil => intro rest acc _; simp
  | cons y t ih =>
    intro rest acc h
    have hy := h y (List.mem_cons_self y t)
    have ht : ∀ c ∈ t, ¬ c = '.' ∧ ¬ c = '/' :=
      fun c hc => h c (List.mem_cons_of_mem y hc)
    have step1 : (y :: t).reverse ++ rest = t.reverse ++ (y :: rest) := by simp
    rw [step1, ih (y :: rest) acc ht]
    show (if y == '/' then [] else if y == '.' then _ else extScan rest (y :: (t ++ acc)))
      = extScan rest ((y :: t) ++ acc)
    simp only [beq_iff_eq, hy.1, hy.2, if_false, List.cons_append]

lemma basename_no_slash (p : String) : ∀ c ∈ (basename p).data, ¬ c = '/' := by
  intro c hc
  have h1 : c ∈ basenameRevChars p := by
    simpa [basename] using hc
  have h2 := List.mem_takeWhile_imp h1
  simpa using h2

lemma extnameOfBase_of_suffix (tail pre : List Char) (b : String)
    (hb : b.data = pre ++ '.' :: tail)
    (htail : ∀ c ∈ tail, ¬ c = '.' ∧ ¬ c = '/')
    (htailne : tail ≠ [])
    (hhead : b.data.head? ≠ some '.')
    (hnoslash : ∀ c ∈ b.data, ¬ c = '/') :
    extnameOfBase b = String.mk ('.' :: tail) := by
  have hbound : extBoundary pre.reverse = false := by
    cases hrev : pre.reverse with
    | nil =>
      have hpre : pre = [] := by simpa using congrArg List.reverse hrev
      rw [hpre] at hb
      exact absurd (by rw [hb]; rfl) hhead
    | cons r0 rt =>
      have hr0 : r0 ∈ pre := by
        have : r0 ∈ pre.reverse := by rw [hrev]; exact List.mem_cons_self r0 rt
        exact List.mem_reverse.mp this
      have : ¬ r0 = '/' := hnoslash r0 (by rw [hb]; exact List.mem_append_left _ hr0)
      simp [extBoundary, this]
  have hrev : b.data.reverse = tail.reverse ++ ('.' :: pre.reverse) := by
    rw [hb]; simp
  have hne : (tail ++ []).isEmpty = false := by
    cases tail with
    | nil => exact absurd rfl htailne
    | cons a t2 => rfl
  unfold extnameOfBase
  rw [hrev, extScan_through tail ('.' :: pre.reverse) [] htail]
  simp [extScan, hbound, hne, htailne]

lemma matches_imp_ext (p : String)
    (h : CleanMeta.matchesExtglob p = true) : extname p ∈ CleanMeta.exts := by
  unfold CleanMeta.matchesExtglob at h
  rw [Bool.and_eq_true] at h
  obtain ⟨hhead, hany⟩ := h
  rw [List.any_eq_true] at hany
  obtain ⟨e, he, hsuf⟩ := hany
  rw [List.isSuffixOf_iff_suffix] at hsuf
  obtain ⟨pre, hpre⟩ := hsuf
  have hhead2 : (basename p).data.head? ≠ some '.' := by
    intro hx
    rw [hx] at hhead
    simp at hhead
  have hext : ∀ (tl : List Char), e.data = '.' :: tl →
      (∀ c ∈ tl, ¬ c = '.' ∧ ¬ c = '/') → tl ≠ [] →
      extname p = String.mk ('.' :: tl) := by
    intro tl hetl htl htlne
    have hb : (basename p).data = pre ++ '.' :: tl := by
      rw [← hpre, hetl]
    exact extnameOfBase_of_suffix tl pre (basename p) hb htl htlne hhead2
      (basename_no_slash p)
  have hcases : e = ".json" ∨ e = ".yaml" ∨ e = ".yml" ∨ e = ".toml" := by
    simpa [CleanMeta.exts] using he
  rcases hcases with rfl | rfl | rfl | rfl
  · rw [show extname p = String.mk ('.' :: "json".data)
      from hext "json".data rfl (by decide) (by decide)]
    simp [CleanMeta.exts]
  · rw [show extname p = String.mk ('.' :: "yaml".data)
      from hext "yaml".data rfl (by decide) (by decide)]
    simp [CleanMeta.exts]
  · rw [show extname p = String.mk ('.' :: "yml".data)
      from hext "yml".data rfl (by decide) (by decide)]
    simp [CleanMeta.exts]
  · rw [show extname p = String.mk ('.' :: "toml".data)
      from hext "toml".data rfl (by decide) (by decide)]
    simp [CleanMeta.exts]

lemma validateOne_cases (files : ContentSet) (src p : String) (e : CleanMeta.Event)
    (h : e ∈ CleanMeta.validateOne files src p) :
    e = CleanMeta.Event.doneUnsupported p ∨ e = CleanMeta.Event.doneNotFound p := by
  unfold CleanMeta.validateOne at h
  rcases List.mem_append.mp h with h1 | h1
  · by_cases hm : CleanMeta.matchesExtglob p = true
    · rw [if_pos hm] at h1
      exact absurd h1 (List.not_mem_nil e)
    · rw [if_neg hm] at h1
      left
      simpa using h1
  · simp only [] at h1
    by_cases hn : (!strStartsWith (CleanMeta.relToSource src p) ".."
        && (lookupAL files (CleanMeta.relToSource src p)).isNone) = true
    · rw [if_pos hn] at h1
      right
      simpa using h1
    · rw [if_neg hn] at h1
      exact absurd h1 (List.not_mem_nil e)

lemma validation_no_io (options : List Spec) (files : ContentSet) (src : String) :
    ∀ e ∈ CleanMeta.validationEvents options files src,
      CleanMeta.isReadOrParse e = false := by
  intro e he
  unfold CleanMeta.validationEvents at he
  rw [List.mem_flatten] at he
  obtain ⟨l, hl, hel⟩ := he
  rw [List.mem_map] at hl
  obtain ⟨o, _, hlo⟩ := hl
  rcases validateOne_cases files src o.path e (hlo ▸ hel) with rfl | rfl <;> rfl

lemma mem_validationEvents (options : List Spec) (files : ContentSet)
    (src : String) (s : Spec) (hs : s ∈ options)
    (hbad : CleanMeta.matchesExtglob s.path = false) :
    CleanMeta.Event.doneUnsupported s.path
      ∈ CleanMeta.validationEvents options files src := by
  unfold CleanMeta.validationEvents
  rw [List.mem_flatten]
  refine ⟨CleanMeta.validateOne files src s.path, List.mem_map.mpr ⟨s, hs, rfl⟩, ?_⟩
  unfold CleanMeta.validateOne
  rw [if_neg (by rw [hbad]; exact Bool.false_ne_true)]
  exact List.mem_append_left _ (List.mem_cons_self _ _)

/-- C6: a File specification whose path's final extension lies outside the
closed set `\x7b.json, .yaml, .yml, .toml\x7d` fails the extglob pre-validation
of clean-meta: the completion callback is invoked with the
unsupported-format error inside the synchronous validation loop, which runs
to completion before any external read settles and before the final parsing
loop runs — the validation segment of the run's event trace contains no
read and no parse event, and the whole trace is the validation segment
followed by the I/O and parse segments. -/
theorem claim_C6 (options : List Spec) (files : ContentSet) (src root : String)
    (s : Spec) (hmem : s ∈ options)
    (hbad : extname s.path ∉ CleanMeta.exts) :
    CleanMeta.Event.doneUnsupported s.path
      ∈ CleanMeta.validationEvents options files src ∧
    (∀ e ∈ CleanMeta.validationEvents options files src,
      CleanMeta.isReadOrParse e = false) ∧
    CleanMeta.cleanMetaTrace options files src root
      = CleanMeta.validationEvents options files src ++
        ((options.map (CleanMeta.classifyEvents src root)).flatten ++
          CleanMeta.parseEvents options files src) := by
  have hfalse : CleanMeta.matchesExtglob s.path = false := by
    cases h : CleanMeta.matchesExtglob s.path with
    | false => rfl
    | true => exact absurd (matches_imp_ext s.path h) hbad
  exact ⟨mem_validationEvents options files src s hmem hfalse,
         validation_no_io options files src,
         rfl⟩

/-- C6 witness: a single specification pointing at `data/notes.txt` — the
`.txt` extension is outside the supported set, and the unsupported-format
`done` invocation sits in the validation segment of the trace. -/
theorem claim_C6_witness :
    (⟨"k", "data/notes.txt"⟩ : Spec) ∈ [(⟨"k", "data/notes.txt"⟩ : Spec)] ∧
    extname "data/notes.txt" ∉ CleanMeta.exts ∧
    CleanMeta.Event.doneUnsupported "data/notes.txt"
      ∈ CleanMeta.validationEvents [⟨"k", "data/notes.txt"⟩] [] "src" :=
  ⟨List.mem_cons_self _ _, by decide,
   (claim_C6 [⟨"k", "data/notes.txt"⟩] [] "src" "/ms" ⟨"k", "data/notes.txt"⟩
      (List.mem_cons_self _ _) (by decide)).1⟩
